import Mathlib

/-!
Verification of the GMsFEM acoustic-wave core (src/src/run_GMsFEM.cpp).

The development shallowly embeds the components of the multiscale solver:
the coarse partition planner (fill_up_n_fine_cells_per_coarse), the
leap-frog time integrator (time_step and the coarse time loop), the
restriction-operator assembler (the CSR triple loop building R_global),
the per-coarse-cell local-to-global DOF map construction, the distributed
DOF-resolution buffer parser, and the Galerkin projector (RAP).

Machine doubles are idealised as exact arithmetic over a commutative
ring; vectors are functions on Fin n and matrices are Mathlib matrices.
Fallible code (MFEM_VERIFY aborts, out-of-bounds accesses, division by
zero) is modelled with Option, where none is a fatal abort.
-/

/-! ## Coarse Partition Planner

The C++ function (run_GMsFEM.cpp lines 28-37):

  void fill_up_n_fine_cells_per_coarse(int n_fine, int n_coarse,
                                       std::vector<int> &result)
  {
    const int k = n_fine / n_coarse;
    for (size_t i = 0; i < result.size(); ++i)
      result[i] = k;
    const int p = n_fine % n_coarse;
    for (int i = 0; i < p; ++i)
      ++result[i];
  }

Every caller sizes the result vector to n_coarse beforehand. C++ int
division truncates toward zero, which is Int.tdiv / Int.tmod. The
function performs no precondition check: n_coarse = 0 divides by zero
(undefined behaviour, modelled none); a negative n_coarse makes the
caller-side vector construction fail (modelled none); the second loop
would write out of bounds whenever p exceeds the result size (modelled
none, though with a positive n_coarse this cannot happen).
-/

/-- Adds one to each of the first p entries of a list, mirroring the
second loop of fill_up_n_fine_cells_per_coarse. -/
def incrementFirst : ℕ → List ℤ → List ℤ
  | 0, l => l
  | _ + 1, [] => []
  | p + 1, x :: xs => (x + 1) :: incrementFirst p xs

/-- Shallow embedding of fill_up_n_fine_cells_per_coarse with the result
vector sized to n_coarse, as at every call site. -/
def fill_up_n_fine_cells_per_coarse (n_fine n_coarse : ℤ) : Option (List ℤ) :=
  if n_coarse ≤ 0 then none
  else
    let k := n_fine.tdiv n_coarse
    let p := n_fine.tmod n_coarse
    if 0 < p ∧ n_coarse < p then none
    else some (incrementFirst p.toNat (List.replicate n_coarse.toNat k))
/-! ## Leap-Frog Time Integrator

The serial step (run_GMsFEM.cpp lines 41-72):

  static void time_step(const SparseMatrix &M, const SparseMatrix &S,
                        const Vector &b, double timeval, double dt,
                        const SparseMatrix &SysMat, Solver &Prec,
                        Vector &U_0, Vector &U_1, Vector &U_2)
  {
    Vector y = U_1; y *= 2.0; y -= U_2;
    Vector z0; z0.SetSize(U_0.Size()); M.Mult(y, z0);
    Vector z1; z1.SetSize(U_0.Size()); S.Mult(U_1, z1);
    Vector z2 = b; z2 *= timeval;
    y = z1; y -= z2; y *= dt*dt;
    Vector RHS = z0; RHS -= y;
    PCG(SysMat, Prec, RHS, U_0, 0, 200, 1e-12, 0.0);
    U_2 = U_1;
    U_1 = U_0;
  }

The run passes SysCoarse for SysMat, where SysCoarse is built by
SysCoarse = 0.0; SysCoarse += M_coarse (lines 429-433), and iterates
t_step = 1..n_time_steps passing time_values[t_step-1] (lines 564-569).
The parallel variant par_time_step (lines 624-669) performs the same
algebra with a CG solve (Jacobi smoother preconditioner, rel tol 1e-12,
max 200 iterations) directly on M.

The PCG solver is external (MFEM); it is abstracted as a function
receiving exactly the data of the call PCG(SysMat, Prec, RHS, U_0, 0,
200, 1e-12, 0.0): the system matrix, iteration cap, relative tolerance,
right-hand side and initial guess.  Doubles are idealised as elements of
a commutative ring.
-/

/-- Print level 0 passed to PCG. -/
def pcg_print_level : ℕ := 0

/-- Iteration cap 200 passed to PCG. -/
def pcg_max_iter : ℕ := 200

/-- Relative tolerance 1e-12 passed to PCG. -/
def pcg_rel_tol : ℚ := 1 / 10 ^ 12

/-- Absolute tolerance 0.0 passed to PCG. -/
def pcg_abs_tol : ℚ := 0

/-- Ring of the three retained time levels of the coarse pressure field:
U0 is the current level, U1 the previous, U2 two steps back. -/
structure WaveState (α : Type) (n : ℕ) where
  U0 : Fin n → α
  U1 : Fin n → α
  U2 : Fin n → α

/-- Shallow embedding of the static function time_step. The solver
argument abstracts PCG and receives the system matrix, the iteration
cap, the relative tolerance, the right-hand side and the initial guess
of the call, returning the solution vector written into U_0. -/
def time_step {α : Type} [CommRing α] {n : ℕ}
    (M S : Matrix (Fin n) (Fin n) α) (b : Fin n → α) (timeval dt : α)
    (SysMat : Matrix (Fin n) (Fin n) α)
    (solve : Matrix (Fin n) (Fin n) α → ℕ → ℚ → (Fin n → α) → (Fin n → α) →
      (Fin n → α))
    (st : WaveState α n) : WaveState α n :=
  let y := (2 : α) • st.U1 - st.U2
  let z0 := Matrix.mulVec M y
  let z1 := Matrix.mulVec S st.U1
  let z2 := timeval • b
  let y2 := (dt * dt) • (z1 - z2)
  let RHS := z0 - y2
  let U0new := solve SysMat pcg_max_iter pcg_rel_tol RHS st.U0
  ⟨U0new, U0new, st.U1⟩

/-- SysCoarse as assembled by the run: SysCoarse = 0.0; SysCoarse +=
M_coarse. -/
def SysCoarse {α : Type} [CommRing α] {n : ℕ}
    (M : Matrix (Fin n) (Fin n) α) : Matrix (Fin n) (Fin n) α :=
  0 + M

/-- State of the coarse time loop after t steps, starting from the
all-zero initial state (U_0 = 0.0; U_1 = U_0; U_2 = U_0) and passing
time_values[t-1] at step t. -/
def timeLoopState {α : Type} [CommRing α] {n : ℕ}
    (M S SysMat : Matrix (Fin n) (Fin n) α) (b : Fin n → α) (dt : α)
    (solve : Matrix (Fin n) (Fin n) α → ℕ → ℚ → (Fin n → α) → (Fin n → α) →
      (Fin n → α))
    (tvals : List α) : ℕ → WaveState α n
  | 0 => ⟨0, 0, 0⟩
  | t + 1 =>
    time_step M S b (tvals.getD t 0) dt SysMat solve
      (timeLoopState M S SysMat b dt solve tvals t)

/-- Integer truncation of 0.1 * n_time_steps (lines 530-531).  For every
n_time_steps in machine-int range the double product 0.1 * N truncates
to the floor of N / 10, so the gate divisor is modelled as N / 10 in ℕ. -/
def n_time_steps_tenth (N : ℕ) : ℕ := N / 10

/-- Progress-diagnostic gate t_step % tenth == 0 (lines 576-580 and
1368-1371). A remainder by zero is undefined behaviour in C++ and is
modelled as none. -/
def progress_gate (N t : ℕ) : Option Bool :=
  if n_time_steps_tenth N = 0 then none
  else some (decide (t % n_time_steps_tenth N = 0))

/-- Right-hand side of one leap-frog step, exactly as time_step computes
it: M * (2*U_prev1 - U_prev2) - dt^2 * (S*U_prev1 - timeval*b). -/
def leapfrog_rhs {α : Type} [CommRing α] {n : ℕ}
    (M S : Matrix (Fin n) (Fin n) α) (b : Fin n → α) (timeval dt : α)
    (st : WaveState α n) : Fin n → α :=
  Matrix.mulVec M ((2 : α) • st.U1 - st.U2) -
    (dt * dt) • (Matrix.mulVec S st.U1 - timeval • b)

/-! ## Restriction Operator Assembler

Each coarse cell carries a dense local basis matrix R[r] of Height h
(local fine DOFs) by Width w (basis functions) returned by the external
basis kernel, and a local-to-global DOF map local2global[r] of length h.
The CSR assembly loop (run_GMsFEM.cpp lines 396-417, identically lines
1212-1231) visits the coarse cells in ascending index order and, for
each local column i < w, emits one global row whose entries are
(local2global[r][j], R[r](j, i)) for j = 0..h-1:

  for (size_t r = 0; r < R.size(); ++r) {
    const int h = R[r].Height();
    const int w = R[r].Width();
    for (int i = 0; i < w; ++i) {
      Ri[k+1] = Ri[k] + h;  ++k;
      for (int j = 0; j < h; ++j) {
        Rj[p] = local2global[r][j];
        Rdata[p] = R[r](j, i);
        ++p;
      }
    }
  }

A LocalBlock models one coarse cell: the basis matrix as a function of
(row j, column i) and the DOF map as a function of j. The assembled
sparse rows are modelled as lists of (column, value) pairs, one list per
global row. -/

/-- Data of one processed coarse cell: basis matrix dimensions h
(Height, local fine DOFs) and w (Width, number of basis functions), the
basis matrix entries, and the local-to-global DOF map. -/
structure LocalBlock (α : Type) where
  h : ℕ
  w : ℕ
  basis : ℕ → ℕ → α
  l2g : ℕ → ℤ

/-- Entries of the global row contributed by local column i of a coarse
cell: column indices from the DOF map, values from basis row j, column
i (the local matrix is transposed on entry into R). -/
def rowEntries {α : Type} (b : LocalBlock α) (i : ℕ) : List (ℤ × α) :=
  (List.range b.h).map fun j => (b.l2g j, b.basis j i)

/-- The w consecutive global rows contributed by one coarse cell, in
local column order. -/
def blockRows {α : Type} (b : LocalBlock α) : List (List (ℤ × α)) :=
  (List.range b.w).map fun i => rowEntries b i

/-- All rows of the global sparse restriction operator, coarse cells
visited in ascending index order. -/
def assembleRows {α : Type} (blocks : List (LocalBlock α)) :
    List (List (ℤ × α)) :=
  blocks.flatMap blockRows

/-- First global row index of coarse cell r: the sum of the widths of
all earlier cells. -/
def rowOffset {α : Type} (blocks : List (LocalBlock α)) (r : ℕ) : ℕ :=
  ((blocks.take r).map LocalBlock.w).sum

/-- Construction of R_global (lines 379-419): n_rows and n_cols are
accumulated as the sums of the per-cell widths and heights, the check
MFEM_VERIFY(n_cols == S_fine.Height(), ...) aborts on a dimension
mismatch, and the matrix is built with those dimensions. -/
def assembleRGlobal {α : Type} (blocks : List (LocalBlock α))
    (fineDim : ℕ) : Option (ℕ × ℕ × List (List (ℤ × α))) :=
  let nrows := (blocks.map LocalBlock.w).sum
  let ncols := (blocks.map LocalBlock.h).sum
  if ncols = fineDim then some (nrows, ncols, assembleRows blocks) else none

/-! ## Local-to-Global DOF Map Construction

Per coarse cell (lines 269-295, identically 1016-1056):

  local2global[coarse_cell].resize(R[coarse_cell].Height(), -1);
  ...
  for each fine cell of the coarse cell {
    DG_fespace.GetElementVDofs(loc_cell, loc_dofs);
    fespace.GetElementVDofs(glob_cell, glob_dofs);
    MFEM_VERIFY(loc_dofs.Size() == glob_dofs.Size(), "Dimensions mismatch");
    for (int di = 0; di < loc_dofs.Size(); ++di)
      local2global[coarse_cell][loc_dofs[di]] = glob_dofs[di];
  }
  for (size_t ii = 0; ii < local2global[coarse_cell].size(); ++ii)
    MFEM_VERIFY(local2global[coarse_cell][ii] >= 0, ...);

The map is sized to the HEIGHT of the basis matrix, initialised to -1,
filled from the per-fine-cell (local DOFs, global DOFs) pairs produced
by the external finite-element spaces, and finally every entry is
verified non-negative; a remaining -1 aborts the run.  List.set ignores
an out-of-range position, leaving the corresponding -1 in place, so an
out-of-range local DOF still leads to the fatal final check. -/

/-- Writes glob_dofs[di] at position loc_dofs[di] for every di, the
inner assignment loop of the DOF-map construction. -/
def writeCellDofs (l2g : List ℤ) (locDofs : List ℕ) (globDofs : List ℤ) :
    List ℤ :=
  (locDofs.zip globDofs).foldl (fun acc pr => acc.set pr.1 pr.2) l2g

/-- Processes one fine cell of the coarse cell: the MFEM_VERIFY on the
two DOF-list sizes aborts on mismatch, otherwise the assignment loop
runs. -/
def applyCellWrite (acc : Option (List ℤ)) (cell : List ℕ × List ℤ) :
    Option (List ℤ) :=
  acc.bind fun l2g =>
    if cell.1.length = cell.2.length then
      some (writeCellDofs l2g cell.1 cell.2)
    else none

/-- Builds the local-to-global map of one coarse cell from the basis
height and the list of per-fine-cell (local DOFs, global DOFs) pairs;
none models an MFEM_VERIFY abort (size mismatch or unresolved entry). -/
def buildLocal2Global (hgt : ℕ) (cells : List (List ℕ × List ℤ)) :
    Option (List ℤ) :=
  (cells.foldl applyCellWrite (some (List.replicate hgt (-1)))).bind
    fun l2g => if ∀ x ∈ l2g, 0 ≤ x then some l2g else none

/-- DOF-map construction for one coarse cell, sized from the Height of
its local basis matrix as in local2global[cc].resize(R[cc].Height(), -1). -/
def processCellDofMap {α : Type} (b : LocalBlock α)
    (cells : List (List ℕ × List ℤ)) : Option (List ℤ) :=
  buildLocal2Global b.h cells

/-- Concrete coarse cell used to exercise processCellDofMap: basis
matrix of Height 2 and Width 1, as delivered by the external kernel for
a region with two local fine DOFs and one basis function. -/
def exampleBlock : LocalBlock ℤ :=
  ⟨2, 1, fun _ _ => 1, fun j => (j : ℤ)⟩

/-! ## DOF Resolution Protocol: buffer parser

After the gather and broadcast, every worker parses the concatenated
record buffer (lines 898-915):

  vector<vector<int> > map_cell_dofs(globNE);
  for (int el = 0, k = 0; el < globNE; ++el) {
    MFEM_VERIFY(k < (int)my_cells_dofs.size(), "k is out of range");
    int cellID = my_cells_dofs[k++];
    MFEM_VERIFY(cellID <= 0, "Incorrect cellID");
    cellID = -cellID;
    const int ndofs = my_cells_dofs[k++];
    MFEM_VERIFY(cellID >= 0 && cellID < globNE, "cellID is out of range");
    MFEM_VERIFY(map_cell_dofs[cellID].empty(), "This cellID has been already added");
    map_cell_dofs[cellID].resize(ndofs);
    for (int i = 0; i < ndofs; ++i)
      map_cell_dofs[cellID][i] = my_cells_dofs[k++];
  }

Reads of ndofs and of the DOF values are not bounds-checked in the
source; reading past the buffer is undefined behaviour and is modelled
as none, as are the MFEM_VERIFY aborts and a negative ndofs (whose
resize would throw).  The parser additionally returns the list of
(cellID, dofs) records it consumed, a ghost trace that does not
influence the computed table. -/

/-- Reads nd DOF values starting at buffer position k. -/
def readDofs (buf : List ℤ) : ℕ → ℕ → Option (List ℤ)
  | _, 0 => some []
  | k, nd + 1 =>
    match buf[k]? with
    | none => none
    | some d => (readDofs buf (k + 1) nd).map fun ds => d :: ds

/-- Parses el remaining records from buffer position k into the table
tbl, accumulating the ghost record trace in reverse in recs. -/
def parseRecords (globNE : ℕ) (buf : List ℤ) :
    ℕ → ℕ → List (List ℤ) → List (ℕ × List ℤ) →
    Option (List (List ℤ) × List (ℕ × List ℤ))
  | 0, _, tbl, recs => some (tbl, recs.reverse)
  | el + 1, k, tbl, recs =>
    (buf[k]?).bind fun cid =>
      if 0 < cid then none
      else
        (buf[k + 1]?).bind fun nd =>
          if nd < 0 then none
          else if (-cid).toNat < globNE then
            if (tbl.getD (-cid).toNat []).isEmpty then
              (readDofs buf (k + 2) nd.toNat).bind fun dofs =>
                parseRecords globNE buf el (k + 2 + nd.toNat)
                  (tbl.set (-cid).toNat dofs) (((-cid).toNat, dofs) :: recs)
            else none
          else none

/-- Parses the whole gathered buffer: globNE records starting at
position 0 into a table of globNE initially empty per-cell DOF lists. -/
def parseCellDofs (globNE : ℕ) (buf : List ℤ) :
    Option (List (List ℤ) × List (ℕ × List ℤ)) :=
  parseRecords globNE buf globNE 0 (List.replicate globNE []) []

/-! ## Galerkin Projector

The coarse operators are produced by RAP (lines 423-424 serial, with
RAP(A, R) = R A R^t for sparse matrices; lines 1249-1250 parallel, with
RAP(A, P) = P^t A P applied to P = R_global_T, giving the same product
R A R^t). -/

/-- Galerkin projection of a fine operator onto the coarse space:
R * A * R^t, as computed by RAP. -/
def coarse_operator {α : Type} [CommRing α] {m k : ℕ}
    (Rg : Matrix (Fin m) (Fin k) α) (A : Matrix (Fin k) (Fin k) α) :
    Matrix (Fin m) (Fin m) α :=
  Rg * A * Rg.transpose
theorem incrementFirst_length (p : ℕ) (l : List ℤ) :
    (incrementFirst p l).length = l.length := by
  induction l generalizing p with
  | nil => cases p <;> rfl
  | cons x xs ih =>
    cases p with
    | zero => rfl
    | succ p => simp [incrementFirst, ih p]

theorem incrementFirst_getElem? (p : ℕ) (l : List ℤ) (i : ℕ) :
    (incrementFirst p l)[i]? = if i < p then l[i]?.map (· + 1) else l[i]? := by
  induction l generalizing p i with
  | nil => cases p <;> simp [incrementFirst]
  | cons x xs ih =>
    cases p with
    | zero => simp [incrementFirst]
    | succ p =>
      cases i with
      | zero => simp [incrementFirst]
      | succ i => simpa [incrementFirst, Nat.succ_lt_succ_iff] using ih p i

theorem incrementFirst_sum (p : ℕ) (l : List ℤ) (hp : p ≤ l.length) :
    (incrementFirst p l).sum = l.sum + p := by
  induction l generalizing p with
  | nil =>
    have : p = 0 := Nat.le_zero.mp hp
    simp [this, incrementFirst]
  | cons x xs ih =>
    cases p with
    | zero => simp [incrementFirst]
    | succ p =>
      have hp' : p ≤ xs.length := by simpa using hp
      simp [incrementFirst, ih p hp']
      ring

theorem incrementFirst_replicate (p n : ℕ) (k : ℤ) :
    incrementFirst p (List.replicate n k) =
      List.replicate (min p n) (k + 1) ++ List.replicate (n - p) k := by
  induction p generalizing n with
  | zero => simp [incrementFirst]
  | succ p ih =>
    cases n with
    | zero => simp [incrementFirst]
    | succ n =>
      simp [List.replicate_succ, incrementFirst, ih n, Nat.succ_min_succ,
        Nat.succ_sub_succ]

/-- Claim C3: for all integers n_fine, n_coarse with 0 < n_coarse and
n_coarse le n_fine, the planner returns a sequence of exactly n_coarse
entries summing to n_fine, whose first n_fine mod n_coarse entries equal
the quotient plus one, all other entries equal the quotient, and no two
entries differ by more than 1; for these arguments the truncating C++
quotient and remainder coincide with the flooring ones, so the quotient
is floor(n_fine / n_coarse). The embedding is a pure function, hence
deterministic. -/
theorem c3_distribute_partition (n_fine n_coarse : ℤ)
    (h1 : 0 < n_coarse) (h2 : n_coarse ≤ n_fine) :
    ∃ l, fill_up_n_fine_cells_per_coarse n_fine n_coarse = some l ∧
      l.length = n_coarse.toNat ∧
      l.sum = n_fine ∧
      (∀ i : ℕ, i < (n_fine.tmod n_coarse).toNat →
        l[i]? = some (n_fine.tdiv n_coarse + 1)) ∧
      (∀ i : ℕ, (n_fine.tmod n_coarse).toNat ≤ i → i < l.length →
        l[i]? = some (n_fine.tdiv n_coarse)) ∧
      (∀ x ∈ l, ∀ y ∈ l, x - y ≤ 1) ∧
      n_fine.tdiv n_coarse = n_fine / n_coarse ∧
      n_fine.tmod n_coarse = n_fine % n_coarse := by
  have hnf : (0 : ℤ) < n_fine := lt_of_lt_of_le h1 h2
  have hp0 : (0 : ℤ) ≤ n_fine.tmod n_coarse := Int.tmod_nonneg _ hnf.le
  have hplt : n_fine.tmod n_coarse < n_coarse := Int.tmod_lt_of_pos _ h1
  have hnoov : ¬(0 < n_fine.tmod n_coarse ∧ n_coarse < n_fine.tmod n_coarse) := by
    rintro ⟨-, hlt⟩
    exact absurd (lt_trans hplt hlt) (lt_irrefl _)
  have heq : fill_up_n_fine_cells_per_coarse n_fine n_coarse =
      some (incrementFirst (n_fine.tmod n_coarse).toNat
        (List.replicate n_coarse.toNat (n_fine.tdiv n_coarse))) := by
    unfold fill_up_n_fine_cells_per_coarse
    rw [if_neg (not_le.mpr h1), if_neg hnoov]
  refine ⟨_, heq, ?_, ?_, ?_, ?_, ?_, ?_, ?_⟩
  · rw [incrementFirst_length, List.length_replicate]
  · have hple : (n_fine.tmod n_coarse).toNat ≤
        (List.replicate n_coarse.toNat (n_fine.tdiv n_coarse)).length := by
      rw [List.length_replicate]
      omega
    rw [incrementFirst_sum _ _ hple, List.sum_replicate, nsmul_eq_mul]
    have hc : ((n_coarse.toNat : ℤ)) = n_coarse := Int.toNat_of_nonneg h1.le
    have hpc : (((n_fine.tmod n_coarse).toNat : ℤ)) = n_fine.tmod n_coarse :=
      Int.toNat_of_nonneg hp0
    rw [hc, hpc, Int.tdiv_add_tmod]
  · intro i hi
    have hilen : i < n_coarse.toNat := by omega
    rw [incrementFirst_getElem?, if_pos hi, List.getElem?_replicate,
      if_pos hilen]
    rfl
  · intro i hi hlen
    rw [incrementFirst_length, List.length_replicate] at hlen
    rw [incrementFirst_getElem?, if_neg (by omega), List.getElem?_replicate,
      if_pos hlen]
  · intro x hx y hy
    have hval : ∀ z ∈ incrementFirst (n_fine.tmod n_coarse).toNat
        (List.replicate n_coarse.toNat (n_fine.tdiv n_coarse)),
        z = n_fine.tdiv n_coarse ∨ z = n_fine.tdiv n_coarse + 1 := by
      intro z hz
      obtain ⟨j, hj, hget⟩ := List.mem_iff_getElem.mp hz
      have hj' : j < n_coarse.toNat := by
        rwa [incrementFirst_length, List.length_replicate] at hj
      have hget? : (incrementFirst (n_fine.tmod n_coarse).toNat
          (List.replicate n_coarse.toNat (n_fine.tdiv n_coarse)))[j]? = some z := by
        rw [List.getElem?_eq_getElem hj, hget]
      rw [incrementFirst_getElem?, List.getElem?_replicate, if_pos hj'] at hget?
      by_cases hcase : j < (n_fine.tmod n_coarse).toNat
      · rw [if_pos hcase] at hget?
        simp at hget?
        right
        omega
      · rw [if_neg hcase] at hget?
        simp at hget?
        left
        omega
    rcases hval x hx with hx1 | hx1 <;> rcases hval y hy with hy1 | hy1 <;>
      rw [hx1, hy1] <;> omega
  · exact Int.tdiv_eq_ediv hnf.le h1.le
  · exact Int.tmod_eq_emod hnf.le h1.le

/-- Witness for claim C3 at n_fine = 7, n_coarse = 3: the returned
sequence is [3, 2, 2]. -/
theorem c3_distribute_partition_witness :
    ∃ l, fill_up_n_fine_cells_per_coarse 7 3 = some l ∧
      l.length = (3 : ℤ).toNat ∧
      l.sum = 7 ∧
      (∀ i : ℕ, i < ((7 : ℤ).tmod 3).toNat →
        l[i]? = some ((7 : ℤ).tdiv 3 + 1)) ∧
      (∀ i : ℕ, ((7 : ℤ).tmod 3).toNat ≤ i → i < l.length →
        l[i]? = some ((7 : ℤ).tdiv 3)) ∧
      (∀ x ∈ l, ∀ y ∈ l, x - y ≤ 1) ∧
      (7 : ℤ).tdiv 3 = 7 / 3 ∧
      (7 : ℤ).tmod 3 = 7 % 3 :=
  c3_distribute_partition 7 3 (by decide) (by decide)

/-- Claim C4 counterexample: with n_fine = 2 and n_coarse = 3 (so
n_coarse > n_fine, which the claim says must fail with a reported
precondition violation) the code silently returns the sequence
[1, 1, 0]. -/
theorem c4_distribute_precondition_counterexample :
    fill_up_n_fine_cells_per_coarse 2 3 = some [1, 1, 0] ∧ (2 : ℤ) < 3 := by
  constructor
  · rfl
  · decide

/-- Claim C4 amended: the planner performs no precondition check. It
fails only for n_coarse le 0 (division by zero when n_coarse = 0,
caller-side result-vector construction failure when n_coarse < 0); for
every 0 < n_fine < n_coarse it silently returns a sequence of n_coarse
entries, the first n_fine of them 1 and the rest 0. -/
theorem c4_distribute_no_precondition_check (n_fine n_coarse : ℤ) :
    (fill_up_n_fine_cells_per_coarse n_fine n_coarse = none ↔ n_coarse ≤ 0) ∧
    (0 < n_fine → n_fine < n_coarse →
      fill_up_n_fine_cells_per_coarse n_fine n_coarse =
        some (List.replicate n_fine.toNat 1 ++
          List.replicate (n_coarse - n_fine).toNat 0)) := by
  constructor
  · constructor
    · intro h
      by_contra hc
      push_neg at hc
      have hplt : n_fine.tmod n_coarse < n_coarse := Int.tmod_lt_of_pos _ hc
      have hnoov : ¬(0 < n_fine.tmod n_coarse ∧
          n_coarse < n_fine.tmod n_coarse) := by
        rintro ⟨-, hlt⟩
        exact absurd (lt_trans hplt hlt) (lt_irrefl _)
      unfold fill_up_n_fine_cells_per_coarse at h
      rw [if_neg (not_le.mpr hc), if_neg hnoov] at h
      exact Option.noConfusion h
    · intro h
      unfold fill_up_n_fine_cells_per_coarse
      rw [if_pos h]
  · intro h1 h2
    have hc : (0 : ℤ) < n_coarse := lt_trans h1 h2
    have hknz : n_fine.tdiv n_coarse = 0 := by
      rw [Int.tdiv_eq_ediv h1.le hc.le]
      exact Int.ediv_eq_zero_of_lt h1.le h2
    have hpz : n_fine.tmod n_coarse = n_fine := by
      rw [Int.tmod_eq_emod h1.le hc.le]
      exact Int.emod_eq_of_lt h1.le h2
    have hnoov : ¬(0 < n_fine.tmod n_coarse ∧
        n_coarse < n_fine.tmod n_coarse) := by
      rw [hpz]
      rintro ⟨-, hlt⟩
      exact absurd (lt_trans h2 hlt) (lt_irrefl _)
    unfold fill_up_n_fine_cells_per_coarse
    rw [if_neg (not_le.mpr hc), if_neg hnoov, hknz, hpz,
      incrementFirst_replicate]
    have hmin : min n_fine.toNat n_coarse.toNat = n_fine.toNat := by omega
    have hsub : n_coarse.toNat - n_fine.toNat = (n_coarse - n_fine).toNat := by
      omega
    rw [hmin, hsub]
    norm_num

/-- Witness for the amended claim C4 at n_fine = 2, n_coarse = 3. -/
theorem c4_distribute_no_precondition_check_witness :
    (fill_up_n_fine_cells_per_coarse 2 3 = none ↔ (3 : ℤ) ≤ 0) ∧
    ((0 : ℤ) < 2 → (2 : ℤ) < 3 →
      fill_up_n_fine_cells_per_coarse 2 3 =
        some (List.replicate (2 : ℤ).toNat 1 ++
          List.replicate ((3 : ℤ) - 2).toNat 0)) :=
  c4_distribute_no_precondition_check 2 3

theorem time_step_eq {α : Type} [CommRing α] {n : ℕ}
    (M S : Matrix (Fin n) (Fin n) α) (b : Fin n → α) (timeval dt : α)
    (SysMat : Matrix (Fin n) (Fin n) α)
    (solve : Matrix (Fin n) (Fin n) α → ℕ → ℚ → (Fin n → α) → (Fin n → α) →
      (Fin n → α))
    (st : WaveState α n) :
    time_step M S b timeval dt SysMat solve st =
      ⟨solve SysMat pcg_max_iter pcg_rel_tol
          (leapfrog_rhs M S b timeval dt st) st.U0,
        solve SysMat pcg_max_iter pcg_rel_tol
          (leapfrog_rhs M S b timeval dt st) st.U0,
        st.U1⟩ :=
  rfl

theorem sysCoarse_eq {α : Type} [CommRing α] {n : ℕ}
    (M : Matrix (Fin n) (Fin n) α) : SysCoarse M = M :=
  zero_add M

/-- Claim C1: at every step t+1 (steps 1..N of the loop, 0-indexed here)
the transition solves SysMat * U_current = rhs with rhs = M*(2*U_prev1 -
U_prev2) - dt^2*(S*U_prev1 - t_values[t]*b), through the PCG call with
iteration cap 200 and relative tolerance 1e-12 on SysMat = SysCoarse =
M; assuming the solve is exact, M * U_current = rhs; afterwards U_prev2
holds the old U_prev1 and U_prev1 holds the new U_current. -/
theorem c1_leapfrog_transition {α : Type} [CommRing α] {n : ℕ}
    (M S SysMat : Matrix (Fin n) (Fin n) α) (b : Fin n → α) (dt : α)
    (solve : Matrix (Fin n) (Fin n) α → ℕ → ℚ → (Fin n → α) → (Fin n → α) →
      (Fin n → α))
    (tvals : List α) (t : ℕ)
    (hSys : SysMat = SysCoarse M)
    (hsolve : ∀ v g, Matrix.mulVec SysMat
      (solve SysMat pcg_max_iter pcg_rel_tol v g) = v)
    (ht : t < tvals.length) :
    (timeLoopState M S SysMat b dt solve tvals (t + 1)).U0 =
      solve SysMat pcg_max_iter pcg_rel_tol
        (leapfrog_rhs M S b (tvals.get ⟨t, ht⟩) dt
          (timeLoopState M S SysMat b dt solve tvals t))
        (timeLoopState M S SysMat b dt solve tvals t).U0 ∧
    Matrix.mulVec M (timeLoopState M S SysMat b dt solve tvals (t + 1)).U0 =
      leapfrog_rhs M S b (tvals.get ⟨t, ht⟩) dt
        (timeLoopState M S SysMat b dt solve tvals t) ∧
    (timeLoopState M S SysMat b dt solve tvals (t + 1)).U1 =
      (timeLoopState M S SysMat b dt solve tvals (t + 1)).U0 ∧
    (timeLoopState M S SysMat b dt solve tvals (t + 1)).U2 =
      (timeLoopState M S SysMat b dt solve tvals t).U1 := by
  have hval : tvals.getD t 0 = tvals.get ⟨t, ht⟩ := by
    rw [List.getD_eq_getElem?_getD, List.getElem?_eq_getElem ht,
      Option.getD_some, List.get_eq_getElem]
  have hstep : timeLoopState M S SysMat b dt solve tvals (t + 1) =
      time_step M S b (tvals.getD t 0) dt SysMat solve
        (timeLoopState M S SysMat b dt solve tvals t) := rfl
  rw [hstep, time_step_eq, hval]
  refine ⟨rfl, ?_, rfl, rfl⟩
  have hSM : SysMat = M := by rw [hSys, sysCoarse_eq]
  rw [← hSM]
  exact hsolve _ _

/-- Witness for claim C1: one concrete step over ℤ with n = 1, M = 1,
S = 1, b = 1, dt = 2, a single source sample 3, and the exact solver
that returns the right-hand side. -/
theorem c1_leapfrog_transition_witness :
    (timeLoopState (1 : Matrix (Fin 1) (Fin 1) ℤ) 1 (SysCoarse 1)
        (fun _ => 1) 2 (fun _ _ _ v _ => v) [3] (0 + 1)).U0 =
      (fun _ _ _ v _ => v : Matrix (Fin 1) (Fin 1) ℤ → ℕ → ℚ →
          (Fin 1 → ℤ) → (Fin 1 → ℤ) → (Fin 1 → ℤ))
        (SysCoarse 1) pcg_max_iter pcg_rel_tol
        (leapfrog_rhs 1 1 (fun _ => 1) (([3] : List ℤ).get ⟨0, by decide⟩) 2
          (timeLoopState (1 : Matrix (Fin 1) (Fin 1) ℤ) 1 (SysCoarse 1)
            (fun _ => 1) 2 (fun _ _ _ v _ => v) [3] 0))
        (timeLoopState (1 : Matrix (Fin 1) (Fin 1) ℤ) 1 (SysCoarse 1)
          (fun _ => 1) 2 (fun _ _ _ v _ => v) [3] 0).U0 ∧
    Matrix.mulVec 1
        (timeLoopState (1 : Matrix (Fin 1) (Fin 1) ℤ) 1 (SysCoarse 1)
          (fun _ => 1) 2 (fun _ _ _ v _ => v) [3] (0 + 1)).U0 =
      leapfrog_rhs 1 1 (fun _ => 1) (([3] : List ℤ).get ⟨0, by decide⟩) 2
        (timeLoopState (1 : Matrix (Fin 1) (Fin 1) ℤ) 1 (SysCoarse 1)
          (fun _ => 1) 2 (fun _ _ _ v _ => v) [3] 0) ∧
    (timeLoopState (1 : Matrix (Fin 1) (Fin 1) ℤ) 1 (SysCoarse 1)
        (fun _ => 1) 2 (fun _ _ _ v _ => v) [3] (0 + 1)).U1 =
      (timeLoopState (1 : Matrix (Fin 1) (Fin 1) ℤ) 1 (SysCoarse 1)
        (fun _ => 1) 2 (fun _ _ _ v _ => v) [3] (0 + 1)).U0 ∧
    (timeLoopState (1 : Matrix (Fin 1) (Fin 1) ℤ) 1 (SysCoarse 1)
        (fun _ => 1) 2 (fun _ _ _ v _ => v) [3] (0 + 1)).U2 =
      (timeLoopState (1 : Matrix (Fin 1) (Fin 1) ℤ) 1 (SysCoarse 1)
        (fun _ => 1) 2 (fun _ _ _ v _ => v) [3] 0).U1 :=
  c1_leapfrog_transition 1 1 (SysCoarse 1) (fun _ => 1) 2
    (fun _ _ _ v _ => v) [3] 0 rfl
    (fun v g => by rw [sysCoarse_eq, Matrix.one_mulVec]) (by decide)

/-- Claim C9: with the zero coarse source vector and the all-zero
initial state, every one of the three time levels is exactly zero after
every step, provided the mass solve is exact and M is injective (the
mass matrix is symmetric positive definite). -/
theorem c9_zero_source_zero_field {α : Type} [CommRing α] {n : ℕ}
    (M S SysMat : Matrix (Fin n) (Fin n) α) (dt : α)
    (solve : Matrix (Fin n) (Fin n) α → ℕ → ℚ → (Fin n → α) → (Fin n → α) →
      (Fin n → α))
    (tvals : List α)
    (hSys : SysMat = SysCoarse M)
    (hsolve : ∀ v g, Matrix.mulVec SysMat
      (solve SysMat pcg_max_iter pcg_rel_tol v g) = v)
    (hinj : ∀ v, Matrix.mulVec M v = 0 → v = 0) :
    ∀ t, timeLoopState M S SysMat (0 : Fin n → α) dt solve tvals t =
      ⟨0, 0, 0⟩ := by
  have hSM : SysMat = M := by rw [hSys, sysCoarse_eq]
  intro t
  induction t with
  | zero => rfl
  | succ t ih =>
    have hstep : timeLoopState M S SysMat (0 : Fin n → α) dt solve tvals
        (t + 1) =
        time_step M S 0 (tvals.getD t 0) dt SysMat solve
          (⟨0, 0, 0⟩ : WaveState α n) := by
      rw [show timeLoopState M S SysMat (0 : Fin n → α) dt solve tvals
          (t + 1) =
          time_step M S 0 (tvals.getD t 0) dt SysMat solve
            (timeLoopState M S SysMat (0 : Fin n → α) dt solve tvals t)
        from rfl, ih]
    have hrhs : leapfrog_rhs M S (0 : Fin n → α) (tvals.getD t 0) dt
        (⟨0, 0, 0⟩ : WaveState α n) = 0 := by
      simp [leapfrog_rhs]
    have hU0 : solve SysMat pcg_max_iter pcg_rel_tol (0 : Fin n → α)
        (0 : Fin n → α) = 0 := by
      apply hinj
      rw [← hSM]
      exact hsolve 0 0
    rw [hstep, time_step_eq, hrhs]
    exact congrArg₂ (fun a b => WaveState.mk a b 0) hU0 hU0

/-- Witness for claim C9: over ℤ with n = 1, M = 1 and the exact
solver, the state after 3 steps is the zero ring. -/
theorem c9_zero_source_zero_field_witness :
    timeLoopState (1 : Matrix (Fin 1) (Fin 1) ℤ) 1 (SysCoarse 1)
        (0 : Fin 1 → ℤ) 2 (fun _ _ _ v _ => v) [3, 5, 7] 3 = ⟨0, 0, 0⟩ :=
  c9_zero_source_zero_field 1 1 (SysCoarse 1) 2 (fun _ _ _ v _ => v)
    [3, 5, 7] rfl (fun v g => by rw [sysCoarse_eq, Matrix.one_mulVec])
    (fun v hv => by rwa [Matrix.one_mulVec] at hv) 3

/-- Claim C10: the progress gate divides by tenth = floor(0.1 * N); it
is well-defined (the remainder has a nonzero divisor) if and only if
N >= 10, so any loop with fewer than 10 steps performs a remainder by
zero, and for N >= 10 the diagnostic fires exactly at the multiples of
floor(N / 10). -/
theorem c10_progress_gate_total_iff (N t : ℕ) :
    ((progress_gate N t).isSome ↔ 10 ≤ N) ∧
    (10 ≤ N → (progress_gate N t = some true ↔ N / 10 ∣ t)) := by
  constructor
  · constructor
    · intro h
      by_contra hlt
      push_neg at hlt
      have hz : n_time_steps_tenth N = 0 := by
        unfold n_time_steps_tenth
        omega
      simp [progress_gate, hz] at h
    · intro h
      have hz : n_time_steps_tenth N ≠ 0 := by
        unfold n_time_steps_tenth
        omega
      simp [progress_gate, hz]
  · intro h
    have hz : n_time_steps_tenth N ≠ 0 := by
      unfold n_time_steps_tenth
      omega
    simp only [progress_gate, if_neg hz, Option.some_inj, decide_eq_true_eq]
    rw [n_time_steps_tenth]
    exact (Nat.dvd_iff_mod_eq_zero).symm

/-- Witness for claim C10 at N = 20, t = 4: the gate is defined and
fires exactly at multiples of 2. -/
theorem c10_progress_gate_total_iff_witness :
    ((progress_gate 20 4).isSome ↔ 10 ≤ 20) ∧
    (10 ≤ 20 → (progress_gate 20 4 = some true ↔ 20 / 10 ∣ 4)) :=
  c10_progress_gate_total_iff 20 4

/-- Claim C2: in the assembled restriction operator, coarse cell r
(cells visited in ascending index order) contributes rows rowOffset(r)
through rowOffset(r) + w - 1; row rowOffset(r) + i lists exactly the
column indices of the local-to-global DOF map of cell r, in map order,
and the value at column local2global[j] is local_basis[j, i]: the
fine-DOF-major local matrix enters R transposed. -/
theorem c2_restriction_assembly {α : Type} (blocks : List (LocalBlock α))
    (r i : ℕ) (hr : r < blocks.length)
    (hi : i < (blocks.get ⟨r, hr⟩).w) :
    (assembleRows blocks)[rowOffset blocks r + i]? =
      some ((List.range (blocks.get ⟨r, hr⟩).h).map fun j =>
        ((blocks.get ⟨r, hr⟩).l2g j, (blocks.get ⟨r, hr⟩).basis j i)) := by
  induction blocks generalizing r with
  | nil => exact absurd hr (Nat.not_lt_zero r)
  | cons b bs ih =>
    cases r with
    | zero =>
      rw [show rowOffset (b :: bs) 0 + i = i from by simp [rowOffset],
        show assembleRows (b :: bs) = blockRows b ++ assembleRows bs from rfl]
      have hiw : i < b.w := hi
      have hlen : i < (blockRows b).length := by
        simpa [blockRows] using hiw
      rw [List.getElem?_append_left hlen]
      unfold blockRows
      rw [List.getElem?_map, List.getElem?_range hiw]
      rfl
    | succ r =>
      have hr' : r < bs.length := by simpa using hr
      have hoff : rowOffset (b :: bs) (r + 1) = b.w + rowOffset bs r := by
        simp [rowOffset]
      rw [hoff,
        show assembleRows (b :: bs) = blockRows b ++ assembleRows bs from rfl]
      have hblen : (blockRows b).length = b.w := by simp [blockRows]
      rw [List.getElem?_append_right (by omega), hblen,
        show b.w + rowOffset bs r + i - b.w = rowOffset bs r + i from by omega]
      exact ih r hr' hi

/-- Witness for claim C2 on one concrete coarse cell with h = 2, w = 1,
at block 0, local column 0. -/
theorem c2_restriction_assembly_witness :
    (assembleRows [exampleBlock])[rowOffset [exampleBlock] 0 + 0]? =
      some ((List.range (([exampleBlock].get ⟨0, by decide⟩).h)).map fun j =>
        (([exampleBlock].get ⟨0, by decide⟩).l2g j,
          ([exampleBlock].get ⟨0, by decide⟩).basis j 0)) :=
  c2_restriction_assembly [exampleBlock] 0 0 (by decide) (by decide)

/-- Claim C5: whenever R_global is assembled (the MFEM_VERIFY on the
column count passed), its column count equals the fine space dimension
and its row count equals the sum of the basis widths of all coarse
cells; a mismatch between the accumulated column count and the fine
dimension aborts the run. -/
theorem c5_rglobal_dimensions {α : Type} (blocks : List (LocalBlock α))
    (fineDim : ℕ) :
    (∀ res, assembleRGlobal blocks fineDim = some res →
      res.2.1 = fineDim ∧ res.1 = (blocks.map LocalBlock.w).sum) ∧
    ((blocks.map LocalBlock.h).sum ≠ fineDim →
      assembleRGlobal blocks fineDim = none) := by
  constructor
  · intro res hres
    unfold assembleRGlobal at hres
    by_cases hc : (blocks.map LocalBlock.h).sum = fineDim
    · rw [if_pos hc] at hres
      obtain rfl := Option.some.inj hres
      exact ⟨hc, rfl⟩
    · rw [if_neg hc] at hres
      exact Option.noConfusion hres
  · intro hc
    unfold assembleRGlobal
    rw [if_neg hc]

/-- Witness for claim C5 on one concrete coarse cell with h = 2, w = 1
and fine dimension 2. -/
theorem c5_rglobal_dimensions_witness :
    (∀ res, assembleRGlobal [exampleBlock] 2 = some res →
      res.2.1 = 2 ∧ res.1 = ([exampleBlock].map LocalBlock.w).sum) ∧
    (([exampleBlock].map LocalBlock.h).sum ≠ 2 →
      assembleRGlobal [exampleBlock] 2 = none) :=
  c5_rglobal_dimensions [exampleBlock] 2

theorem writeCellDofs_length (l2g : List ℤ) (locDofs : List ℕ)
    (globDofs : List ℤ) :
    (writeCellDofs l2g locDofs globDofs).length = l2g.length := by
  unfold writeCellDofs
  generalize locDofs.zip globDofs = prs
  induction prs generalizing l2g with
  | nil => rfl
  | cons p ps ih => simpa [List.foldl_cons, List.length_set] using ih (l2g.set p.1 p.2)

theorem foldl_applyCellWrite_none (cells : List (List ℕ × List ℤ)) :
    cells.foldl applyCellWrite none = none := by
  induction cells with
  | nil => rfl
  | cons c cs ih => simpa [applyCellWrite] using ih

theorem foldl_applyCellWrite_length (cells : List (List ℕ × List ℤ)) :
    ∀ init l2g, cells.foldl applyCellWrite (some init) = some l2g →
      l2g.length = init.length := by
  induction cells with
  | nil =>
    intro init l2g h
    rw [← Option.some.inj h]
  | cons c cs ih =>
    intro init l2g h
    by_cases hc : c.1.length = c.2.length
    · have hrest : cs.foldl applyCellWrite
          (some (writeCellDofs init c.1 c.2)) = some l2g := by
        simpa [applyCellWrite, hc] using h
      have := ih _ _ hrest
      rwa [writeCellDofs_length] at this
    · rw [List.foldl_cons,
        show applyCellWrite (some init) c = none from by
          simp [applyCellWrite, hc],
        foldl_applyCellWrite_none] at h
      exact Option.noConfusion h

/-- Claim C6 counterexample: a coarse cell whose basis matrix has
Height 2 and Width 1 is processed successfully, and its local-to-global
map has length 2, the HEIGHT of the basis matrix, not the width 1
stated by the claim. -/
theorem c6_l2g_length_counterexample :
    processCellDofMap exampleBlock [([0, 1], [5, 7])] = some [5, 7] ∧
    exampleBlock.w = 1 ∧
    ([5, 7] : List ℤ).length ≠ exampleBlock.w := by
  refine ⟨rfl, rfl, by decide⟩

/-- Claim C6 amended: after the Local Region Processor finishes a
coarse cell, the length of its local-to-global DOF map equals the
HEIGHT (number of rows, the local fine DOFs) of its local basis matrix,
and every entry is resolved (non-negative); an unresolved entry aborts
the run (modelled by none), it is not a recoverable condition. -/
theorem c6_l2g_resolved {α : Type} (b : LocalBlock α)
    (cells : List (List ℕ × List ℤ)) (l2g : List ℤ)
    (h : processCellDofMap b cells = some l2g) :
    l2g.length = b.h ∧ ∀ x ∈ l2g, 0 ≤ x := by
  unfold processCellDofMap buildLocal2Global at h
  cases hf : cells.foldl applyCellWrite (some (List.replicate b.h (-1))) with
  | none =>
    rw [hf] at h
    exact Option.noConfusion h
  | some l2g0 =>
    rw [hf, Option.some_bind] at h
    by_cases hall : ∀ x ∈ l2g0, 0 ≤ x
    · rw [if_pos hall] at h
      obtain rfl := Option.some.inj h
      refine ⟨?_, hall⟩
      have := foldl_applyCellWrite_length cells _ _ hf
      rwa [List.length_replicate] at this
    · rw [if_neg hall] at h
      exact Option.noConfusion h

/-- Witness for the amended claim C6 on the concrete cell with basis
Height 2 covered by one fine cell carrying two DOFs. -/
theorem c6_l2g_resolved_witness :
    ([5, 7] : List ℤ).length = exampleBlock.h ∧
      ∀ x ∈ ([5, 7] : List ℤ), 0 ≤ x :=
  c6_l2g_resolved exampleBlock [([0, 1], [5, 7])] [5, 7] rfl

/-- Claim C8: the Galerkin-projected coarse operator R * A * R^t of a
symmetric fine operator A is symmetric in exact arithmetic; in
particular the coarse mass and stiffness operators, projected from the
symmetric fine mass and stiffness operators, are symmetric. -/
theorem c8_projection_preserves_symmetry {α : Type} [CommRing α]
    {m k : ℕ} (Rg : Matrix (Fin m) (Fin k) α)
    (A : Matrix (Fin k) (Fin k) α) (hA : A.transpose = A) :
    (coarse_operator Rg A).transpose = coarse_operator Rg A := by
  unfold coarse_operator
  rw [Matrix.transpose_mul, Matrix.transpose_mul,
    Matrix.transpose_transpose, hA, Matrix.mul_assoc]

/-- Witness for claim C8 with a concrete symmetric 2 x 2 fine operator
and a concrete 1 x 2 restriction. -/
theorem c8_projection_preserves_symmetry_witness :
    ((!![1, 2; 2, 5] : Matrix (Fin 2) (Fin 2) ℤ).transpose = !![1, 2; 2, 5]) ∧
    ((coarse_operator (!![1, 2] : Matrix (Fin 1) (Fin 2) ℤ)
        !![1, 2; 2, 5]).transpose =
      coarse_operator !![1, 2] !![1, 2; 2, 5]) :=
  ⟨by decide, c8_projection_preserves_symmetry !![1, 2] !![1, 2; 2, 5]
    (by decide)⟩

theorem getD_set_self (tbl : List (List ℤ)) (c : ℕ) (v : List ℤ)
    (hc : c < tbl.length) : (tbl.set c v).getD c [] = v := by
  rw [List.getD_eq_getElem?_getD, List.getElem?_set_self hc]
  rfl

theorem getD_set_ne (tbl : List (List ℤ)) (c cc : ℕ) (v : List ℤ)
    (h : c ≠ cc) : (tbl.set c v).getD cc [] = tbl.getD cc [] := by
  rw [List.getD_eq_getElem?_getD, List.getElem?_set_ne h,
    ← List.getD_eq_getElem?_getD]

theorem parseRecords_spec (globNE : ℕ) (buf : List ℤ) :
    ∀ (el k : ℕ) (tbl : List (List ℤ)) (recs : List (ℕ × List ℤ))
      (out : List (List ℤ) × List (ℕ × List ℤ)),
      parseRecords globNE buf el k tbl recs = some out →
      tbl.length = globNE →
      out.1.length = globNE ∧
      ∃ news : List (ℕ × List ℤ),
        out.2 = recs.reverse ++ news ∧
        news.length = el ∧
        (∀ rec ∈ news, rec.1 < globNE) ∧
        ((∀ rec ∈ news, rec.2 ≠ []) →
          (news.map Prod.fst).Nodup ∧
          (∀ rec ∈ news, tbl.getD rec.1 [] = []) ∧
          (∀ rec ∈ news, out.1.getD rec.1 [] = rec.2) ∧
          (∀ c, tbl.getD c [] ≠ [] → out.1.getD c [] = tbl.getD c [])) := by
  intro el
  induction el with
  | zero =>
    intro k tbl recs out h htbl
    rw [parseRecords] at h
    obtain rfl := Option.some.inj h
    exact ⟨htbl, [], by simp, rfl, by simp,
      fun _ => ⟨by simp, by simp, by simp, fun c hc => rfl⟩⟩
  | succ el ih =>
    intro k tbl recs out h htbl
    rw [parseRecords] at h
    cases hcid : buf[k]? with
    | none =>
      rw [hcid] at h
      exact Option.noConfusion h
    | some cid =>
      rw [hcid, Option.some_bind] at h
      by_cases hpos : 0 < cid
      · rw [if_pos hpos] at h
        exact Option.noConfusion h
      rw [if_neg hpos] at h
      cases hnd : buf[k + 1]? with
      | none =>
        rw [hnd] at h
        exact Option.noConfusion h
      | some nd =>
        rw [hnd, Option.some_bind] at h
        by_cases hndneg : nd < 0
        · rw [if_pos hndneg] at h
          exact Option.noConfusion h
        rw [if_neg hndneg] at h
        by_cases hcr : (-cid).toNat < globNE
        case neg =>
          rw [if_neg hcr] at h
          exact Option.noConfusion h
        rw [if_pos hcr] at h
        by_cases hemp : (tbl.getD (-cid).toNat []).isEmpty
        case neg =>
          rw [if_neg hemp] at h
          exact Option.noConfusion h
        rw [if_pos hemp] at h
        cases hdofs : readDofs buf (k + 2) nd.toNat with
        | none =>
          rw [hdofs] at h
          exact Option.noConfusion h
        | some dofs =>
          rw [hdofs, Option.some_bind] at h
          have htbl2 : (tbl.set (-cid).toNat dofs).length = globNE := by
            rw [List.length_set]
            exact htbl
          obtain ⟨hlen, news2, hout2, hnewslen, hbound, hcond⟩ :=
            ih _ _ _ _ h htbl2
          refine ⟨hlen, ((-cid).toNat, dofs) :: news2, ?_,
            by simpa using hnewslen, ?_, ?_⟩
          · rw [hout2, List.reverse_cons, List.append_assoc]
            rfl
          · intro rec hrec
            rcases List.mem_cons.mp hrec with hh | hh
            · rw [hh]
              exact hcr
            · exact hbound rec hh
          · intro hne
            have hdne : dofs ≠ [] := by
              have := hne ((-cid).toNat, dofs) (List.mem_cons_self _ _)
              simpa using this
            have hne2 : ∀ rec ∈ news2, rec.2 ≠ [] := fun rec hrec =>
              hne rec (List.mem_cons_of_mem _ hrec)
            obtain ⟨hnodup2, hempty2, hhold2, hpres2⟩ := hcond hne2
            have hclen : (-cid).toNat < tbl.length := by
              rw [htbl]
              exact hcr
            have htblc : tbl.getD (-cid).toNat [] = [] :=
              List.isEmpty_iff.mp hemp
            have hsetc : (tbl.set (-cid).toNat dofs).getD (-cid).toNat [] =
                dofs := getD_set_self tbl _ dofs hclen
            have hnotin : ∀ rec ∈ news2, rec.1 ≠ (-cid).toNat := by
              intro rec hrec hreceq
              have h1 := hempty2 rec hrec
              rw [hreceq, hsetc] at h1
              exact hdne h1
            refine ⟨?_, ?_, ?_, ?_⟩
            · rw [List.map_cons]
              refine List.nodup_cons.mpr ⟨?_, hnodup2⟩
              intro hcmem
              obtain ⟨rec, hrec, hrfst⟩ := List.mem_map.mp hcmem
              exact hnotin rec hrec hrfst
            · intro rec hrec
              rcases List.mem_cons.mp hrec with hh | hh
              · rw [hh]
                exact htblc
              · have h1 := hempty2 rec hh
                rwa [getD_set_ne tbl _ rec.1 dofs
                  (fun hcc => hnotin rec hh hcc.symm)] at h1
            · intro rec hrec
              rcases List.mem_cons.mp hrec with hh | hh
              · have hne0 : (tbl.set (-cid).toNat dofs).getD (-cid).toNat []
                    ≠ [] := by
                  rw [hsetc]
                  exact hdne
                have h2 := hpres2 _ hne0
                rw [hsetc] at h2
                rw [hh]
                exact h2
              · exact hhold2 rec hh
            · intro cc hcc
              have hnecc : (-cid).toNat ≠ cc := by
                intro heq
                rw [← heq] at hcc
                exact hcc htblc
              have h1 : (tbl.set (-cid).toNat dofs).getD cc [] ≠ [] := by
                rwa [getD_set_ne tbl _ cc dofs hnecc]
              have h2 := hpres2 cc h1
              rwa [getD_set_ne tbl _ cc dofs hnecc] at h2

/-- Claim C7 counterexample: the buffer [0, 0, 0, 0] for 2 global fine
cells parses successfully although both records carry the same cell ID
0 (each with a zero DOF count, so the emptiness-based duplicate check
does not fire) and cell 1 never appears; success therefore does not
require every fine-cell ID to appear exactly once. -/
theorem c7_parse_duplicate_counterexample :
    parseCellDofs 2 [0, 0, 0, 0] =
      some ([[], []], [(0, []), (0, [])]) ∧
    ¬ (([(0, ([] : List ℤ)), (0, [])].map Prod.fst).Nodup) := by
  exact ⟨rfl, by decide⟩

/-- Claim C7 amended: parsing aborts on any wrongly tagged, out-of-range
or (first-occurrence-nonempty) duplicate record and on any buffer
overrun, and whenever parsing succeeds with every record carrying at
least one DOF, there are exactly globNE records, their cell IDs are
pairwise distinct and in range, and the table maps every fine cell ID
to the complete DOF list of its unique record. A record with an empty
DOF list does not mark its cell as seen, so only under the
positive-DOF-count hypothesis does success force every cell ID to
appear exactly once. -/
theorem c7_parse_complete (globNE : ℕ) (buf : List ℤ)
    (tbl : List (List ℤ)) (recs : List (ℕ × List ℤ))
    (hparse : parseCellDofs globNE buf = some (tbl, recs))
    (hne : ∀ rec ∈ recs, rec.2 ≠ []) :
    recs.length = globNE ∧
    (recs.map Prod.fst).Nodup ∧
    (∀ rec ∈ recs, rec.1 < globNE ∧ tbl.getD rec.1 [] = rec.2) ∧
    (∀ c < globNE, tbl.getD c [] ≠ []) := by
  unfold parseCellDofs at hparse
  obtain ⟨hlen, news, hout2, hnewslen, hbound, hcond⟩ :=
    parseRecords_spec globNE buf globNE 0 _ [] _ hparse
      (List.length_replicate _ _)
  simp only [List.reverse_nil, List.nil_append] at hout2
  have hrecs : recs = news := hout2
  subst hrecs
  obtain ⟨hnodup, hempty, hhold, hpres⟩ := hcond hne
  refine ⟨hnewslen, hnodup, fun rec hrec => ⟨hbound rec hrec, hhold rec hrec⟩,
    ?_⟩
  have hsub : (recs.map Prod.fst).toFinset ⊆ Finset.range globNE := by
    intro x hx
    rw [List.mem_toFinset] at hx
    obtain ⟨rec, hrec, hfst⟩ := List.mem_map.mp hx
    rw [← hfst]
    exact Finset.mem_range.mpr (hbound rec hrec)
  have hcard : (Finset.range globNE).card ≤ (recs.map Prod.fst).toFinset.card := by
    rw [List.toFinset_card_of_nodup hnodup, List.length_map, hnewslen,
      Finset.card_range]
  have hfeq := Finset.eq_of_subset_of_card_le hsub hcard
  intro c hc
  have hcin : c ∈ (recs.map Prod.fst).toFinset := by
    rw [hfeq]
    exact Finset.mem_range.mpr hc
  rw [List.mem_toFinset] at hcin
  obtain ⟨rec, hrec, hfst⟩ := List.mem_map.mp hcin
  rw [← hfst, hhold rec hrec]
  exact hne rec hrec

/-- Witness for the amended claim C7 on the two-cell buffer
[0, 1, 5, -1, 1, 7] that records cell 0 with DOF list [5] and cell 1
with DOF list [7]. -/
theorem c7_parse_complete_witness :
    ([(0, [5]), (1, [7])] : List (ℕ × List ℤ)).length = 2 ∧
    (([(0, ([5] : List ℤ)), (1, [7])].map Prod.fst).Nodup) ∧
    (∀ rec ∈ ([(0, [5]), (1, [7])] : List (ℕ × List ℤ)),
      rec.1 < 2 ∧ ([[5], [7]] : List (List ℤ)).getD rec.1 [] = rec.2) ∧
    (∀ c < 2, ([[5], [7]] : List (List ℤ)).getD c [] ≠ []) :=
  c7_parse_complete 2 [0, 1, 5, -1, 1, 7] [[5], [7]] [(0, [5]), (1, [7])]
    (by decide) (by decide)
